import Mathlib

/-!
local-cli: a shallow embedding of `main.go`.

The program is one sequential pipeline: parse the arguments, select a site,
find the ssh-entry script of the site, patch the script, run it.  The pure parts
of that pipeline are embedded here as Lean functions and the natural-language
claims about them are settled below.

Modelling conventions.

* A Go `string` is modelled by a Lean `String`, that is a sequence of Unicode
  code points: the texts handled here (JSON fields, command-line words, shell
  scripts) are taken to be valid UTF-8, on which the byte-wise operations of
  package `strings` (`Contains`, `HasSuffix`, `Split`, `Join`) and the rune-wise
  ones (`TrimSpace`, `ToLower`, `EqualFold`) act as written here.
* The functions of the Go standard library are not part of the repository; they
  are written out from their documented behaviour in namespace `Strings` and
  `Filepath` (Unix flavour, separator `/`).  The Unicode case tables are taken
  as a parameter (`CaseTables`); the ASCII range is concrete.
* `os.Exit(1)` after a printed message is modelled by `Except.error` carrying
  the printed message; the file system is passed in as data.
-/

namespace LocalCli

/-! ## Package `strings` -/

namespace Strings

/-- Rune predicate `unicode.IsSpace`: the Latin-1 white space characters and the
`White_Space` table above Latin-1. -/
def isSpace (c : Char) : Bool :=
  let r := c.toNat
  if r ≤ 0xFF then
    r = 0x09 || r = 0x0A || r = 0x0B || r = 0x0C || r = 0x0D || r = 0x20
      || r = 0x85 || r = 0xA0
  else
    r = 0x1680 || (0x2000 ≤ r && r ≤ 0x200A) || r = 0x2028 || r = 0x2029
      || r = 0x202F || r = 0x205F || r = 0x3000

/-- Left half of `strings.TrimSpace`: drop the leading white space runes. -/
def trimLeftChars : List Char → List Char
  | [] => []
  | c :: cs => if isSpace c then trimLeftChars cs else c :: cs

/-- Right half of `strings.TrimSpace`: drop the trailing white space runes. -/
def trimRightChars (cs : List Char) : List Char :=
  (trimLeftChars cs.reverse).reverse

/-- Go `strings.TrimSpace`: the string without leading and trailing white space. -/
def TrimSpace (s : String) : String :=
  String.mk (trimRightChars (trimLeftChars s.data))

/-- Test `len(s) >= len(p) && s[:len(p)] == p` on character lists. -/
def hasPrefixChars : List Char → List Char → Bool
  | _, [] => true
  | [], _ :: _ => false
  | c :: cs, p :: ps => c == p && hasPrefixChars cs ps

/-- Go `strings.HasSuffix`: `len(s) >= len(suffix) && s[len(s)-len(suffix):] == suffix`. -/
def HasSuffix (s suffix : String) : Bool :=
  hasPrefixChars s.data.reverse suffix.data.reverse

/-- Search of `strings.Index(s, substr) >= 0`: some position of `s` starts with `sub`. -/
def containsChars : List Char → List Char → Bool
  | [], sub => hasPrefixChars [] sub
  | c :: cs, sub => hasPrefixChars (c :: cs) sub || containsChars cs sub

/-- Go `strings.Contains`: `Index(s, substr) >= 0`. -/
def Contains (s substr : String) : Bool :=
  containsChars s.data substr.data

/-- Splitting at every occurrence of a one-character separator, the pieces in
order; `cur` holds the (reversed) piece being read. -/
def splitCharsAux (sep : Char) : List Char → List Char → List (List Char)
  | [], cur => [cur.reverse]
  | c :: cs, cur =>
    if c = sep then cur.reverse :: splitCharsAux sep cs []
    else splitCharsAux sep cs (c :: cur)

/-- Go `strings.Split(s, sep)` for a separator of one character, the only use in
the program (`"\n"`): `Count(s, sep) + 1` pieces, the text between the
separators. -/
def Split (s : String) (sep : Char) : List String :=
  (splitCharsAux sep s.data []).map String.mk

/-- Go `strings.Join`: nothing for no element, the element itself for one,
otherwise the first element followed by `sep` and the next element, in turn. -/
def Join (elems : List String) (sep : String) : String :=
  match elems with
  | [] => ""
  | [a] => a
  | a :: rest => rest.foldl (fun b s => b ++ sep ++ s) a

end Strings

/-! ## `patchScript` -/

/-- Source `patchScript`: with an empty command the script is returned as it is;
otherwise the lines launching the interactive shell are skipped and
`exec <command>` is appended. -/
def patchScript (content : String) (command : String) : String :=
  if command = "" then
    content
  else
    let lines := Strings.Split content '\n'
    let newLines := lines.foldl
      (fun (newLines : List String) (line : String) =>
        let trimmed := Strings.TrimSpace line
        if trimmed = "exec $SHELL" || Strings.Contains trimmed "Launching shell" then
          newLines
        else
          newLines ++ [line])
      []
    let finalContent := Strings.Join newLines "\n"
    finalContent ++ "\nexec " ++ command ++ "\n"

/-! ## Package `path/filepath` (Unix) -/

namespace Filepath

/-- Go `filepath.Base`: the last element of the path.  Trailing separators are
removed before the last element is extracted; the empty path gives `"."`, a path
of separators only gives `"/"`. -/
def Base (path : String) : String :=
  if path = "" then
    "."
  else
    let stripped := (path.data.reverse.dropWhile (fun c => c == '/')).reverse
    let last := (stripped.reverse.takeWhile (fun c => c != '/')).reverse
    if last = [] then "/" else String.mk last

end Filepath

/-! ## Data model -/

/-- Source `MySQLConfig`. -/
structure MySQLConfig where
  Database : String
  User : String
  Password : String
deriving DecidableEq

/-- Source `Service` (its field `Type` is written `Type_`); the port map is kept
as an association list. -/
structure Service where
  Name : String
  Version : String
  Type_ : String
  Ports : List (String × List Int)
deriving DecidableEq

/-- Source `Site`, the record of `sites.json`; the service map is kept as an
association list. -/
structure Site where
  ID : String
  Name : String
  Path : String
  Domain : String
  MySQL : MySQLConfig
  Services : List (String × Service)
deriving DecidableEq

/-! ## Argument parsing (`main`, step 1) -/

/-- The three variables `main` fills from the arguments. -/
structure ParsedArgs where
  searchQuery : String
  action : String
  extraArgs : List String
deriving DecidableEq

/-- Source `main`, the argument parsing after the help check: `args` is
`os.Args[1:]`. -/
def parseArgs (args : List String) : ParsedArgs :=
  let searchQuery := if h : args.length > 0 then args[0] else ""
  let action := if h : args.length > 1 then args[1] else "shell"
  let extraArgs := if args.length > 2 then args.drop 2 else []
  ⟨searchQuery, action, extraArgs⟩

/-! ## `runAction` -/

/-- The message printed before `os.Exit(1)` when the action is `db` and the site
has no database. -/
def noMySQLMessage : String := "Error: No MySQL configuration found for this site.\n"

/-- Source `runAction`, step 1: the command constructed from the action and the
extra arguments; an error is the message printed before `os.Exit(1)`. -/
def runActionCommand (site : Site) (action : String) (extraArgs : List String) :
    Except String String :=
  if action = "db" then
    if site.MySQL.Database = "" then
      .error noMySQLMessage
    else
      .ok ("mysql -u" ++ site.MySQL.User ++ " -p" ++ site.MySQL.Password ++ " "
        ++ site.MySQL.Database)
  else if action = "wp" then
    if extraArgs.length > 0 then
      .ok ("wp " ++ Strings.Join extraArgs " ")
    else
      .ok ""
  else if action = "shell" then
    if extraArgs.length > 0 then
      .ok (Strings.Join extraArgs " ")
    else
      .ok ""
  else
    if extraArgs.length > 0 then
      .ok (Strings.Join extraArgs " ")
    else
      .ok ""

/-- Source `runAction`, steps 1 to 4: the text written to the temporary file that
`bash` then runs.  `script` is the result of `os.ReadFile(scriptPath)`; an error
is the message printed before `os.Exit(1)`.  The creation and the writing of the
temporary file are taken to succeed. -/
def runAction (script : Except String String) (site : Site) (action : String)
    (extraArgs : List String) : Except String String :=
  match runActionCommand site action extraArgs with
  | .error msg => .error msg
  | .ok command =>
    match script with
    | .error err => .error ("Error reading script: " ++ err ++ "\n")
    | .ok content => .ok (patchScript content command)

/-! ## `findScript` -/

/-- One entry of the `ssh-entry` directory: its name and what `os.ReadFile`
gives for it (`none` when the read fails). -/
structure DirEntry where
  name : String
  content : Option String
deriving DecidableEq

/-- The error of `findScript` when no script matches. -/
def noScriptMessage (site : Site) : String :=
  "no matching shell script found for site: " ++ site.Name

/-- Source `findScript`, the loop over the directory entries.  `join` stands for
`filepath.Join`. -/
def findScriptLoop (join : String → String → String) (sshDir : String) (site : Site) :
    List DirEntry → Except String String
  | [] => .error (noScriptMessage site)
  | entry :: entries =>
    if !Strings.HasSuffix entry.name ".sh" then
      findScriptLoop join sshDir site entries
    else
      let scriptPath := join sshDir entry.name
      match entry.content with
      | none => findScriptLoop join sshDir site entries
      | some contentStr =>
        if Strings.Contains contentStr site.ID then
          .ok scriptPath
        else
          let pathBase := Filepath.Base site.Path
          if pathBase ≠ "" && Strings.Contains contentStr pathBase then
            .ok scriptPath
          else
            findScriptLoop join sshDir site entries

/-- Source `findScript`.  `readDir` is the result of `os.ReadDir(sshDir)`, whose
error is returned as it is. -/
def findScript (join : String → String → String) (readDir : Except String (List DirEntry))
    (sshDir : String) (site : Site) : Except String String :=
  match readDir with
  | .error err => .error err
  | .ok entries => findScriptLoop join sshDir site entries

/-! ## `findSite` -/

/-- The Unicode tables of package `unicode` used above the ASCII range. -/
structure CaseTables where
  /-- Table `unicode.ToLower` for a rune above `MaxASCII`. -/
  toLower : Char → Char
  /-- Table `unicode.SimpleFold`: the next rune of the case-folding orbit. -/
  simpleFold : Char → Char

namespace Strings

/-- Rune map `unicode.ToLower`: concrete on ASCII, the table above it. -/
def toLowerRune (t : CaseTables) (c : Char) : Char :=
  if c.toNat < 0x80 then
    if 'A' ≤ c ∧ c ≤ 'Z' then Char.ofNat (c.toNat + 32) else c
  else
    t.toLower c

/-- Go `strings.ToLower`: every rune mapped to its lower case. -/
def ToLower (t : CaseTables) (s : String) : String :=
  String.mk (s.data.map (toLowerRune t))

/-- The orbit walk of `EqualFold`: `for r != sr && r < tr { r = SimpleFold(r) }`,
with a bound on the number of steps (an orbit has no more runes than there are
code points). -/
def foldWalk (t : CaseTables) (sr tr : Char) : Nat → Char → Char
  | 0, r => r
  | n + 1, r => if r ≠ sr ∧ r < tr then foldWalk t sr tr n (t.simpleFold r) else r

/-- Comparison of one pair of runes in `EqualFold`. -/
def equalFoldRune (t : CaseTables) (a b : Char) : Bool :=
  if a = b then
    true
  else
    let sr := if b < a then b else a
    let tr := if b < a then a else b
    if tr.toNat < 0x80 then
      decide ('A' ≤ sr ∧ sr ≤ 'Z' ∧ tr.toNat = sr.toNat + 32)
    else
      decide (foldWalk t sr tr 0x110000 (t.simpleFold sr) = tr)

/-- Rune-wise walk of `EqualFold` over both strings. -/
def equalFoldChars (t : CaseTables) : List Char → List Char → Bool
  | [], [] => true
  | [], _ :: _ => false
  | _ :: _, [] => false
  | a :: as, b :: bs => equalFoldRune t a b && equalFoldChars t as bs

/-- Go `strings.EqualFold`: equality under simple Unicode case folding. -/
def EqualFold (t : CaseTables) (s u : String) : Bool :=
  equalFoldChars t s.data u.data

end Strings

/-- Source `findSite`: the first site of the list whose ID or name equals the
query ignoring case, or whose name contains the query ignoring case. -/
def findSite (t : CaseTables) (sites : List Site) (query : String) : Option Site :=
  let lowerQuery := Strings.ToLower t query
  let rec loop : List Site → Option Site
    | [] => none
    | s :: rest =>
      if Strings.EqualFold t s.ID query then
        some s
      else if Strings.EqualFold t s.Name query then
        some s
      else if Strings.Contains (Strings.ToLower t s.Name) lowerQuery then
        some s
      else
        loop rest
  loop sites

/-! ## Specification-side definitions -/

/-- The lines the claim about `patchScript` drops, in its words: the
whitespace-trimmed text equals `exec $SHELL` or contains `Launching shell`. -/
def launchesShell (line : String) : Bool :=
  decide (Strings.TrimSpace line = "exec $SHELL")
    || decide ("Launching shell".data <:+: (Strings.TrimSpace line).data)

/-- The patched script in the words of the claim: the lines of the content, the
shell-launching ones dropped, joined with a newline, followed by the `exec`
line. -/
def patchedScriptSpec (content command : String) : String :=
  String.intercalate "\n" ((Strings.Split content '\n').filter (fun line => !launchesShell line))
    ++ "\nexec " ++ command ++ "\n"

/-- The entries `findScript` is said to accept, in the words of the claim: the
name ends in `.sh`, the content is readable, and the content has the site's ID
or the base name of the site's path as a substring. -/
def scriptMatches (site : Site) (entry : DirEntry) : Bool :=
  decide (".sh".data <:+ entry.name.data)
    && match entry.content with
      | none => false
      | some content =>
        decide (site.ID.data <:+: content.data)
          || decide ((Filepath.Base site.Path).data <:+: content.data)

/-- A site whose name contains the ID of `shopSite`. -/
def demoSite : Site :=
  ⟨"Xy12AbCdE", "demo-5jc4nxq8i", "/sites/demo", "demo.local", ⟨"local", "root", "root"⟩, []⟩

/-- A site with the ID of the usage text. -/
def shopSite : Site :=
  ⟨"5jc4NXQ8I", "shop", "/sites/shop", "shop.local", ⟨"local", "root", "root"⟩, []⟩

/-! ## Lemmas on the library functions -/

theorem Strings.hasPrefixChars_iff (s p : List Char) :
    Strings.hasPrefixChars s p = true ↔ p <+: s := by
  induction s generalizing p with
  | nil =>
    cases p with
    | nil => simp [Strings.hasPrefixChars]
    | cons a p => simp [Strings.hasPrefixChars]
  | cons c cs ih =>
    cases p with
    | nil => simp [Strings.hasPrefixChars]
    | cons a p =>
      simp only [Strings.hasPrefixChars, Bool.and_eq_true, beq_iff_eq, ih, List.cons_prefix_cons]
      constructor
      · rintro ⟨h1, h2⟩
        exact ⟨h1.symm, h2⟩
      · rintro ⟨h1, h2⟩
        exact ⟨h1.symm, h2⟩

theorem Strings.containsChars_iff (s sub : List Char) :
    Strings.containsChars s sub = true ↔ sub <:+: s := by
  induction s with
  | nil =>
    simp only [Strings.containsChars, Strings.hasPrefixChars_iff, List.prefix_nil, List.infix_nil]
  | cons c cs ih =>
    simp only [Strings.containsChars, Bool.or_eq_true, Strings.hasPrefixChars_iff, ih,
      List.infix_cons_iff]

theorem Strings.Contains_iff (s substr : String) :
    Strings.Contains s substr = true ↔ substr.data <:+: s.data :=
  Strings.containsChars_iff s.data substr.data

theorem Strings.HasSuffix_iff (s suffix : String) :
    Strings.HasSuffix s suffix = true ↔ suffix.data <:+ s.data := by
  unfold Strings.HasSuffix
  rw [Strings.hasPrefixChars_iff, List.reverse_prefix]

theorem Strings.foldl_join_eq_go (sep : String) (rest : List String) (acc : String) :
    rest.foldl (fun b s => b ++ sep ++ s) acc = String.intercalate.go acc sep rest := by
  induction rest generalizing acc with
  | nil => simp [String.intercalate.go]
  | cons a rest ih => simp [String.intercalate.go, ih]

theorem Strings.Join_eq_intercalate (elems : List String) (sep : String) :
    Strings.Join elems sep = String.intercalate sep elems := by
  match elems with
  | [] => simp [Strings.Join, String.intercalate]
  | [a] => simp [Strings.Join, String.intercalate, String.intercalate.go]
  | a :: b :: rest =>
    simp only [Strings.Join, String.intercalate]
    exact Strings.foldl_join_eq_go sep (b :: rest) a

theorem Strings.splitCharsAux_ne_nil (sep : Char) (cs cur : List Char) :
    Strings.splitCharsAux sep cs cur ≠ [] := by
  induction cs generalizing cur with
  | nil => simp [Strings.splitCharsAux]
  | cons c cs ih =>
    unfold Strings.splitCharsAux
    split
    · simp
    · exact ih _

theorem Strings.go_data (sep : String) (l : List String) (acc : String) :
    (String.intercalate.go acc sep l).data
      = acc.data ++ (l.map (fun x => sep.data ++ x.data)).flatten := by
  induction l generalizing acc with
  | nil => simp [String.intercalate.go]
  | cons a l ih => simp [String.intercalate.go, ih]

theorem Strings.splitCharsAux_unsplit (sep : Char) (cs cur : List Char) :
    ∃ p ps, Strings.splitCharsAux sep cs cur = p :: ps
      ∧ p ++ (ps.map (fun x => sep :: x)).flatten = cur.reverse ++ cs := by
  induction cs generalizing cur with
  | nil => exact ⟨cur.reverse, [], by simp [Strings.splitCharsAux]⟩
  | cons c cs ih =>
    unfold Strings.splitCharsAux
    split
    · rename_i h
      obtain ⟨p, ps, h1, h2⟩ := ih []
      refine ⟨cur.reverse, p :: ps, by rw [h1], ?_⟩
      simp only [List.map_cons, List.flatten_cons, List.cons_append]
      rw [h2, h]
      simp
    · obtain ⟨p, ps, h1, h2⟩ := ih (c :: cur)
      exact ⟨p, ps, h1, by rw [h2]; simp⟩

theorem Strings.splitCharsAux_no_sep (sep : Char) (cs cur : List Char) (hcur : sep ∉ cur) :
    ∀ piece ∈ Strings.splitCharsAux sep cs cur, sep ∉ piece := by
  induction cs generalizing cur with
  | nil =>
    intro piece hp
    simp only [Strings.splitCharsAux, List.mem_singleton] at hp
    rw [hp]
    simpa using hcur
  | cons c cs ih =>
    intro piece hp
    unfold Strings.splitCharsAux at hp
    split at hp
    · rcases List.mem_cons.1 hp with h | h
      · rw [h]
        simpa using hcur
      · exact ih [] (by simp) piece h
    · rename_i hne
      refine ih (c :: cur) ?_ piece hp
      intro hmem
      rcases List.mem_cons.1 hmem with h | h
      · exact hne h.symm
      · exact hcur h

/-- Joining the pieces of `Split` with the separator gives the string back. -/
theorem Strings.intercalate_Split (s : String) (sep : Char) :
    String.intercalate (String.singleton sep) (Strings.Split s sep) = s := by
  obtain ⟨p, ps, h1, h2⟩ := Strings.splitCharsAux_unsplit sep s.data []
  apply String.ext
  unfold Strings.Split
  rw [h1]
  simp only [List.map_cons, String.intercalate, Strings.go_data, List.map_map]
  simp only [List.reverse_nil, List.nil_append] at h2
  rw [← h2]
  congr 1

/-- No piece of `Split` contains the separator. -/
theorem Strings.Split_no_sep (s : String) (sep : Char) :
    ∀ piece ∈ Strings.Split s sep, sep ∉ piece.data := by
  intro piece hp
  unfold Strings.Split at hp
  obtain ⟨cs, hcs, rfl⟩ := List.mem_map.1 hp
  exact Strings.splitCharsAux_no_sep sep s.data [] (by simp) cs hcs
theorem foldl_skip_eq_filter {α : Type} (skip : α → Bool) (xs acc : List α) :
    xs.foldl (fun (kept : List α) (x : α) => if skip x then kept else kept ++ [x]) acc
      = acc ++ xs.filter (fun x => !skip x) := by
  induction xs generalizing acc with
  | nil => simp
  | cons x xs ih =>
    simp only [List.foldl_cons, ih, List.filter_cons]
    cases skip x <;> simp

theorem Filepath.Base_ne_empty (path : String) : Filepath.Base path ≠ "" := by
  unfold Filepath.Base
  intro h
  split at h
  · exact absurd h (by decide)
  · dsimp only at h
    split at h
    · exact absurd h (by decide)
    · rename_i hne
      apply hne
      have := congrArg String.data h
      simpa using this

theorem launchesShell_eq (line : String) :
    (Strings.TrimSpace line = "exec $SHELL"
      || Strings.Contains (Strings.TrimSpace line) "Launching shell") = launchesShell line := by
  unfold launchesShell
  congr 1
  rw [Bool.eq_iff_iff]
  simp [Strings.Contains_iff]

theorem findScriptLoop_eq_find (join : String → String → String) (sshDir : String)
    (site : Site) (entries : List DirEntry) :
    findScriptLoop join sshDir site entries
      = match entries.find? (scriptMatches site) with
        | some entry => .ok (join sshDir entry.name)
        | none => .error (noScriptMessage site) := by
  induction entries with
  | nil => rfl
  | cons entry entries ih =>
    have hbase : decide (Filepath.Base site.Path ≠ "") = true :=
      decide_eq_true (Filepath.Base_ne_empty site.Path)
    by_cases hsh : Strings.HasSuffix entry.name ".sh" = true
    · have hsh2 : ".sh".data <:+ entry.name.data := (Strings.HasSuffix_iff _ _).1 hsh
      cases hc : entry.content with
      | none =>
        simp [findScriptLoop, hc, hsh, scriptMatches, List.find?_cons, ih]
      | some content =>
        by_cases hid : Strings.Contains content site.ID = true
        · have hid2 := (Strings.Contains_iff _ _).1 hid
          simp [findScriptLoop, hc, hsh, hid, scriptMatches, List.find?_cons, hsh2, hid2]
        · have hid2 : ¬ site.ID.data <:+: content.data :=
            fun h => hid ((Strings.Contains_iff _ _).2 h)
          by_cases hb : Strings.Contains content (Filepath.Base site.Path) = true
          · have hb2 := (Strings.Contains_iff _ _).1 hb
            simp [findScriptLoop, hc, hsh, hid, hb, hbase, scriptMatches, List.find?_cons,
              hsh2, hb2]
          · have hb2 : ¬ (Filepath.Base site.Path).data <:+: content.data :=
              fun h => hb ((Strings.Contains_iff _ _).2 h)
            simp [findScriptLoop, hc, hsh, hid, hb, scriptMatches, List.find?_cons,
              hsh2, hid2, hb2, ih]
    · have hsh2 : ¬ ".sh".data <:+ entry.name.data :=
        fun h => hsh ((Strings.HasSuffix_iff _ _).2 h)
      simp [findScriptLoop, hsh, scriptMatches, List.find?_cons, hsh2, ih]

theorem patchScript_eq_patchedScriptSpec (content command : String) (h : command ≠ "") :
    patchScript content command = patchedScriptSpec content command := by
  unfold patchScript patchedScriptSpec
  rw [if_neg h]
  simp only [Bool.or_eq_true, decide_eq_true_eq]
  have hfold := foldl_skip_eq_filter launchesShell (Strings.Split content '\n') []
  simp only [← launchesShell_eq, Bool.or_eq_true, decide_eq_true_eq, List.nil_append] at hfold
  rw [hfold, Strings.Join_eq_intercalate]
  simp only [← launchesShell_eq, Bool.or_eq_true, decide_eq_true_eq]

theorem wp_command_ne_empty (arguments : String) : "wp " ++ arguments ≠ "" := by
  intro h
  have hlen := congrArg String.length h
  rw [String.length_append] at hlen
  have h3 : "wp ".length = 3 := by decide
  have h0 : "".length = 0 := by decide
  omega

/-! ## The claims -/

/-- C1: for every script content, `patchScript content ""` is the content
itself, unchanged: with an empty command the original script is what is run. -/
theorem patchScript_empty_command (content : String) :
    patchScript content "" = content := by
  simp [patchScript]

/-- C2: for every script content and every non-empty command, `patchScript`
gives the lines of the content (split at the newline), in order and unmodified,
without the lines whose trimmed text equals `exec $SHELL` or contains
`Launching shell`, joined with a newline and followed by
`"\nexec " ++ command ++ "\n"`. -/
theorem patchScript_nonempty_command (content command : String) (h : command ≠ "") :
    patchScript content command
      = String.intercalate "\n"
          ((Strings.Split content '\n').filter (fun line => !launchesShell line))
        ++ "\nexec " ++ command ++ "\n" :=
  patchScript_eq_patchedScriptSpec content command h

/-- Witness of C2 on a script with both kinds of shell-launching lines. -/
theorem patchScript_nonempty_command_witness :
    "wp plugin list" ≠ ""
      ∧ patchScript "export A=1\necho \"Launching shell\"\n  exec $SHELL\n" "wp plugin list"
        = "export A=1\n\nexec wp plugin list\n" :=
  ⟨by decide,
    (patchScript_nonempty_command
      "export A=1\necho \"Launching shell\"\n  exec $SHELL\n" "wp plugin list"
      (by decide)).trans (by decide)⟩

/-- C3, the failing input: the site whose ID is the query stands behind a site
whose name contains the query; `findSite` returns the site in front, whose ID is
not the query. -/
theorem findSite_ID_shadowed_by_name (t : CaseTables) :
    Strings.EqualFold t shopSite.ID "5jc4NXQ8I" = true
      ∧ findSite t [demoSite, shopSite] "5jc4NXQ8I" = some demoSite
      ∧ Strings.EqualFold t demoSite.ID "5jc4NXQ8I" = false :=
  ⟨rfl, rfl, rfl⟩

/-- C4, the claim as stated fails: for the action `wp` without extra arguments
no command starting with `wp` is constructed, and the script that is run is the
one the action `shell` runs. -/
theorem runAction_wp_counterexample :
    (¬ ∃ command, runActionCommand shopSite "wp" [] = .ok command
        ∧ "wp".data <+: command.data)
      ∧ runAction (.ok "export A=1\nexec $SHELL\n") shopSite "wp" []
        = runAction (.ok "export A=1\nexec $SHELL\n") shopSite "shell" [] := by
  refine ⟨?_, rfl⟩
  rintro ⟨command, hcmd, hwp⟩
  have hempty : runActionCommand shopSite "wp" [] = .ok "" := rfl
  rw [hempty] at hcmd
  injection hcmd with hcmd
  subst hcmd
  exact absurd hwp (by decide)

/-- C4, amended: for the action `wp` without extra arguments the command is
empty (interactive mode) and the script that is run is the original script,
the same one the action `shell` runs without extra arguments; with extra
arguments the command is `"wp "` followed by the arguments joined with spaces,
and the script that is run ends with the line `exec wp <arguments>`. -/
theorem runAction_wp (site : Site) (content : String) (extraArgs : List String) :
    (extraArgs = [] →
        runActionCommand site "wp" extraArgs = .ok ""
          ∧ runAction (.ok content) site "wp" extraArgs = .ok content
          ∧ runAction (.ok content) site "wp" extraArgs
            = runAction (.ok content) site "shell" extraArgs)
      ∧ (extraArgs ≠ [] →
        runActionCommand site "wp" extraArgs = .ok ("wp " ++ Strings.Join extraArgs " ")
          ∧ "wp".data <+: ("wp " ++ Strings.Join extraArgs " ").data
          ∧ runAction (.ok content) site "wp" extraArgs
            = .ok (String.intercalate "\n"
                  ((Strings.Split content '\n').filter (fun line => !launchesShell line))
                ++ "\nexec wp " ++ Strings.Join extraArgs " " ++ "\n")) := by
  constructor
  · intro h
    subst h
    refine ⟨rfl, ?_, rfl⟩
    show Except.ok (patchScript content "") = Except.ok content
    simp [patchScript]
  · intro h
    have hlen : extraArgs.length > 0 := List.length_pos.2 h
    have hcmd : runActionCommand site "wp" extraArgs
        = .ok ("wp " ++ Strings.Join extraArgs " ") := by
      unfold runActionCommand
      rw [if_neg (by decide), if_pos rfl, if_pos hlen]
    refine ⟨hcmd, ?_, ?_⟩
    · rw [String.data_append]
      exact ⟨[' '] ++ (Strings.Join extraArgs " ").data, rfl⟩
    · unfold runAction
      rw [hcmd]
      show Except.ok (patchScript content ("wp " ++ Strings.Join extraArgs " ")) = _
      rw [patchScript_eq_patchedScriptSpec content _ (wp_command_ne_empty _)]
      unfold patchedScriptSpec
      congr 1
      apply String.ext
      simp [String.data_append]

/-- Witness of C4 amended: `wp` without arguments and `wp plugin list`. -/
theorem runAction_wp_witness :
    runAction (.ok "export A=1\nexec $SHELL\n") shopSite "wp" []
        = .ok "export A=1\nexec $SHELL\n"
      ∧ runAction (.ok "export A=1\nexec $SHELL\n") shopSite "wp" ["plugin", "list"]
        = .ok "export A=1\n\nexec wp plugin list\n" :=
  ⟨((runAction_wp shopSite "export A=1\nexec $SHELL\n" []).1 rfl).2.1,
    (((runAction_wp shopSite "export A=1\nexec $SHELL\n" ["plugin", "list"]).2
      (by decide)).2.2).trans (congrArg Except.ok (by decide))⟩

/-- C5: for the action `db`, every site and every list of extra arguments, the
construction of the command fails with the `No MySQL configuration found`
message exactly when the database name of the site is empty; otherwise the
command is `"mysql -u" ++ User ++ " -p" ++ Password ++ " " ++ Database`,
whatever the extra arguments are. -/
theorem runActionCommand_db (site : Site) (extraArgs : List String) :
    (runActionCommand site "db" extraArgs = .error noMySQLMessage ↔ site.MySQL.Database = "")
      ∧ ((∃ msg, runActionCommand site "db" extraArgs = .error msg) ↔ site.MySQL.Database = "")
      ∧ (site.MySQL.Database ≠ "" →
          runActionCommand site "db" extraArgs
            = .ok ("mysql -u" ++ site.MySQL.User ++ " -p" ++ site.MySQL.Password ++ " "
                ++ site.MySQL.Database)) := by
  by_cases h : site.MySQL.Database = ""
  · simp [runActionCommand, h]
  · simp [runActionCommand, h]

/-- Witness of C5: a site with a database and a site without one. -/
theorem runActionCommand_db_witness :
    runActionCommand ⟨"5jc4NXQ8I", "shop", "/sites/shop", "shop.local", ⟨"local", "root", "pw"⟩, []⟩
        "db" ["ignored"] = .ok "mysql -uroot -ppw local"
      ∧ runActionCommand ⟨"5jc4NXQ8I", "shop", "/sites/shop", "shop.local", ⟨"", "root", "pw"⟩, []⟩
        "db" [] = .error noMySQLMessage :=
  ⟨(runActionCommand_db
      ⟨"5jc4NXQ8I", "shop", "/sites/shop", "shop.local", ⟨"local", "root", "pw"⟩, []⟩
      ["ignored"]).2.2 (by decide),
    (runActionCommand_db
      ⟨"5jc4NXQ8I", "shop", "/sites/shop", "shop.local", ⟨"", "root", "pw"⟩, []⟩ []).1.2 rfl⟩

/-- C6: with the directory given as an ordered list of entries, `findScript`
returns the path of the first entry whose name ends in `.sh`, whose content is
readable and whose content contains the site's ID or the base name of the
site's path; it returns the `no matching shell script found` error exactly when
no entry satisfies these conditions. -/
theorem findScript_first_match (join : String → String → String) (sshDir : String)
    (site : Site) (entries : List DirEntry) :
    (findScript join (.ok entries) sshDir site
        = match entries.find? (scriptMatches site) with
          | some entry => .ok (join sshDir entry.name)
          | none => .error (noScriptMessage site))
      ∧ (findScript join (.ok entries) sshDir site = .error (noScriptMessage site)
          ↔ ∀ entry ∈ entries, scriptMatches site entry = false) := by
  have hmain := findScriptLoop_eq_find join sshDir site entries
  refine ⟨hmain, ?_⟩
  show findScriptLoop join sshDir site entries = _ ↔ _
  rw [hmain]
  cases hf : entries.find? (scriptMatches site) with
  | none =>
    simp only [true_iff]
    intro entry hmem
    have := List.find?_eq_none.1 hf entry hmem
    simpa using this
  | some entry =>
    constructor
    · intro h
      cases h
    · intro h
      have hmatch : scriptMatches site entry = true := List.find?_some hf
      rw [h entry (List.mem_of_find?_eq_some hf)] at hmatch
      cases hmatch

/-- C7: an argument list with fewer than two elements gives the action `shell`
and no extra arguments; an argument list with at least two elements gives the
first as the search query, the second as the action and the rest as the extra
arguments. -/
theorem parseArgs_default_action (args : List String) :
    (args.length < 2 → (parseArgs args).action = "shell" ∧ (parseArgs args).extraArgs = [])
      ∧ (2 ≤ args.length →
          args[0]? = some (parseArgs args).searchQuery
            ∧ args[1]? = some (parseArgs args).action
            ∧ (parseArgs args).extraArgs = args.drop 2) := by
  match args with
  | [] => simp [parseArgs]
  | [a] => simp [parseArgs]
  | [a, b] => simp [parseArgs]
  | a :: b :: c :: rest => simp [parseArgs]

/-- Witness of C7: one argument, and three arguments. -/
theorem parseArgs_default_action_witness :
    ((parseArgs ["shop"]).action = "shell" ∧ (parseArgs ["shop"]).extraArgs = [])
      ∧ (parseArgs ["shop", "wp", "plugin", "list"]).extraArgs = ["plugin", "list"] :=
  ⟨(parseArgs_default_action ["shop"]).1 (by decide),
    ((parseArgs_default_action ["shop", "wp", "plugin", "list"]).2 (by decide)).2.2⟩

end LocalCli
